import Mathlib

/-!
# Verification of the jss_helper core logic

Shallow embedding of the pure core of `jss_helper_lib/tools.py` (and the
older monolithic copy in `jss_helper_lib/jss_helper.py`): package-name
parsing, loose version ordering, wildcard search, object resolution,
container scanning, scope evaluation and report formatting.

Python strings are modelled as Lean `String`/`List Char`; `None` as
`Option.none`; exceptions as `Except`/`Option` error values.  The external
`jss` API client is modelled as record fields (`Lookup`) and structural
accessors on containers (`findall`/`findtext` become the `refs`/`texts`
fields of `Container`).
-/

namespace JssHelperVerif

/-- Python exceptions that the code under study raises or catches. -/
inductive PyError where
  | jssGetError
  | unboundLocalError
  | valueError (msg : String)
deriving DecidableEq, Repr

/-- A server object as the core logic sees it: an id and a name.
In python-jss both are carried as text. -/
structure JSSObject where
  id : String
  name : String
deriving DecidableEq, Repr

/-! ## Character classes of the package-name regex

`get_package_info` matches
`^(?P<basename>[\w\s\-]+)[\s\-_](?P<version>[\d]+[\w.\-]*)(?P<extension>\.(pkg(\.zip)?|dmg))$`
against a Python 2 byte string (no re.UNICODE), so `\w` is
`[a-zA-Z0-9_]` and `\s` is `[ \t\n\r\v\f]`. -/

def isWordChar (c : Char) : Bool :=
  c.isAlpha || c.isDigit || c = '_'

def isSpaceChar (c : Char) : Bool :=
  c = ' ' || c = '\t' || c = '\n' || c = '\r' || c = '\x0b' || c = '\x0c'

def isBasenameChar (c : Char) : Bool :=
  isWordChar c || isSpaceChar c || c = '-'

def isSepChar (c : Char) : Bool :=
  isSpaceChar c || c = '-' || c = '_'

def isVersionChar (c : Char) : Bool :=
  isWordChar c || c = '.' || c = '-'

/-- `l` ends with `suf`. -/
def endsWithL (l suf : List Char) : Bool :=
  l.reverse.take suf.length = suf.reverse

/-- Length of the extension group `\.(pkg(\.zip)?|dmg)` anchored at the end
of the string.  At most one of the three literal extensions can be a
suffix of a given string, so the extension is determined by the suffix. -/
def extLen (cs : List Char) : Option Nat :=
  if endsWithL cs ".pkg.zip".toList then some 8
  else if endsWithL cs ".pkg".toList || endsWithL cs ".dmg".toList then some 4
  else none

/-- Backtracking search for the basename/separator/version split of the
part of the name preceding the extension.  The regex engine tries the
longest basename first (`[\w\s\-]+` is greedy), so we count `bl` down;
for a fixed basename the version group is forced: it is everything
between the separator and the extension. -/
def findSplitAux (core : List Char) : Nat → Option (List Char × List Char)
  | 0 => none
  | bl + 1 =>
    match core.drop (bl + 1) with
    | sep :: v1 :: vrest =>
      if (core.take (bl + 1)).all isBasenameChar && isSepChar sep &&
          v1.isDigit && vrest.all isVersionChar then
        some (core.take (bl + 1), v1 :: vrest)
      else
        findSplitAux core bl
    | _ => findSplitAux core bl

/-- `re.search` lets `$` match just before one trailing newline as well
as at the very end; no extension contains a newline, so when the string
ends in `'\n'` the only possible match stops before it. -/
def stripNl (cs : List Char) : List Char :=
  if cs.getLast? = some '\n' then cs.dropLast else cs

/-- `tools.get_package_info`: return the package basename and version as a
pair; `(none, none)` when the regex does not match. -/
def get_package_info (package_name : String) : Option String × Option String :=
  match extLen (stripNl package_name.toList) with
  | none => (none, none)
  | some el =>
    match findSplitAux ((stripNl package_name.toList).take ((stripNl package_name.toList).length - el))
        ((stripNl package_name.toList).length - el) with
    | some (b, v) => (some (String.mk b), some (String.mk v))
    | none => (none, none)

/-! ## `distutils.version.LooseVersion`

`LooseVersion.parse` splits the version string with
`re.split(r'(\d+|[a-z]+|\.)', vstring)`, drops empty pieces and `'.'`,
and converts the digit runs to integers.  Comparison is Python 2 `cmp`
on the resulting lists, where `int` compares below `str` when the kinds
are mixed (Python 2 orders distinct types by type name). -/

/-- One component of a parsed loose version. -/
inductive VComp where
  | num (n : Nat)
  | chunk (s : List Char)
deriving DecidableEq, Repr

/-- The run kind used when tokenizing a loose version string. -/
inductive RunKind where
  | num
  | low
  | oth
deriving DecidableEq, Repr

def isLowerAZ (c : Char) : Bool := 'a' ≤ c && c ≤ 'z'

/-- Classify a character: digit run, `[a-z]` run, a dot (dropped), or a
run of characters matched by none of the alternatives (`re.split`
returns those in-between pieces as well). -/
def runKindOf (c : Char) : Option RunKind :=
  if c.isDigit then some .num
  else if isLowerAZ c then some .low
  else if c = '.' then none
  else some .oth

def digitsToNat (ds : List Char) : Nat :=
  ds.foldl (fun n c => n * 10 + (c.toNat - '0'.toNat)) 0

def flushRun : Option (RunKind × List Char) → List VComp
  | none => []
  | some (.num, acc) => [.num (digitsToNat acc)]
  | some (.low, acc) => [.chunk acc]
  | some (.oth, acc) => [.chunk acc]

/-- Tokenize a loose version string into components, carrying the
current unfinished run. -/
def looseTokAux (cur : Option (RunKind × List Char)) : List Char → List VComp
  | [] => flushRun cur
  | c :: cs =>
    match runKindOf c with
    | none => flushRun cur ++ looseTokAux none cs
    | some k =>
      match cur with
      | some (k', acc) =>
        if k = k' then looseTokAux (some (k', acc ++ [c])) cs
        else flushRun (some (k', acc)) ++ looseTokAux (some (k, [c])) cs
      | none => looseTokAux (some (k, [c])) cs

/-- `LooseVersion(vstring).version`. -/
def looseParse (s : String) : List VComp := looseTokAux none s.toList

/-- Three-way comparison from a linear order. -/
def linCmp {α : Type} [LinearOrder α] (a b : α) : Ordering :=
  if a < b then .lt else if b < a then .gt else .eq

/-- Python 2 `cmp` on strings: lexicographic by character code. -/
def charListCmp : List Char → List Char → Ordering
  | [], [] => .eq
  | [], _ :: _ => .lt
  | _ :: _, [] => .gt
  | a :: as, b :: bs => (linCmp a b).then (charListCmp as bs)

/-- Python 2 `cmp` on version components (`int` < `str` when mixed). -/
def vcompCmp : VComp → VComp → Ordering
  | .num a, .num b => linCmp a b
  | .chunk a, .chunk b => charListCmp a b
  | .num _, .chunk _ => .lt
  | .chunk _, .num _ => .gt

/-- Python 2 `cmp` on lists: elementwise, then by length. -/
def vlistCmp : List VComp → List VComp → Ordering
  | [], [] => .eq
  | [], _ :: _ => .lt
  | _ :: _, [] => .gt
  | a :: as, b :: bs => (vcompCmp a b).then (vlistCmp as bs)

/-- `cmp(LooseVersion(a), LooseVersion(b))`. -/
def looseCmp (a b : String) : Ordering :=
  vlistCmp (looseParse a) (looseParse b)

/-! ## `tools.get_newest_pkg`

`versions = {get_package_info(p)[1]: p for p in options if
get_package_info(p)[1]}` then `versions[str(max(map(LooseVersion,
versions)))]`.  The dict is modelled as an association list in insertion
order with last-write-wins values (the claims under study do not depend
on Python 2's hash-bucket iteration order). -/

/-- Python dict assignment `d[k] = v`: overwrite in place or append. -/
def dictInsert (d : List (String × String)) (k v : String) :
    List (String × String) :=
  if d.any (fun p => p.1 == k) then
    d.map (fun p => if p.1 == k then (k, v) else p)
  else d ++ [(k, v)]

/-- Python dict read `d[k]` (as an `Option`). -/
def dictFind (d : List (String × String)) (k : String) : Option String :=
  (d.find? (fun p => p.1 == k)).map (·.2)

/-- The dict key contributed by one package name in the comprehension of
`get_newest_pkg`: its parsed version when that is truthy (present and
non-empty), else nothing. -/
def stepKey (package : String) : Option String :=
  match (get_package_info package).2 with
  | some v => if v = "" then none else some v
  | none => none

/-- One step of the dict comprehension: add the package under its
version key when the guard holds. -/
def dictStep (d : List (String × String)) (package : String) :
    List (String × String) :=
  match stepKey package with
  | some v => dictInsert d v package
  | none => d

/-- The dict comprehension in `get_newest_pkg`: keys are version strings,
values the last package name mapping to that version.  The guard is
Python truthiness, so an empty version string would also be skipped. -/
def buildVersions (options : List String) : List (String × String) :=
  options.foldl dictStep []

/-- Python `max` over loose versions: scan, replacing the current
maximum only when the new item compares strictly greater. -/
def pyMaxLoose (l : List String) (x : String) : String :=
  l.foldl (fun m v => if looseCmp v m = .gt then v else m) x

/-- `tools.get_newest_pkg`: the newest package name from a list of
package names, or `none` when no name yields a version. -/
def get_newest_pkg (options : List String) : Option String :=
  match buildVersions options with
  | [] => none
  | (k0, _) :: rest => dictFind (buildVersions options) (pyMaxLoose (rest.map (·.1)) k0)

/-! ## `tools.update_name` -/

/-- A policy, reduced to the one field `update_name` touches: the text of
its `general/name` element. -/
structure Policy where
  name : String
deriving DecidableEq, Repr

/-- `prefixMatches pat s`: `s` starts with `pat` (character-wise). -/
def prefixMatches : List Char → List Char → Bool
  | [], _ => true
  | _ :: _, [] => false
  | p :: ps, c :: cs => p == c && prefixMatches ps cs

/-- Python `str.replace` on a nonempty pattern: scan left to right,
replacing non-overlapping occurrences and continuing after the
replacement text.  Structural recursion on a fuel argument (each step
consumes at least one character, so fuel `= length` suffices and the
`0, l` branch is never reached from `pyReplace`). -/
def replaceAllGo (pat rep : List Char) : Nat → List Char → List Char
  | _, [] => []
  | 0, l => l
  | fuel + 1, c :: cs =>
    if prefixMatches pat (c :: cs) then
      rep ++ replaceAllGo pat rep fuel ((c :: cs).drop pat.length)
    else
      c :: replaceAllGo pat rep fuel cs

/-- Python `str.replace` (the empty-pattern case is never exercised by
`update_name`, whose patterns are regex groups matching one or more
characters). -/
def pyReplace (s pat rep : String) : String :=
  match pat.toList with
  | [] => s
  | p :: ps => String.mk (replaceAllGo (p :: ps) rep.toList s.toList.length s.toList)

/-- `tools.update_name`, in state-passing form: the returned policy is
the (possibly mutated) policy, paired with the raised exception if any.
The guard is Python `all(...)` on the four parsed parts, so `None` and
the empty string both fail it. -/
def update_name (policy : Policy) (cur_pkg_name new_pkg_name : String) :
    Policy × Option PyError :=
  match (get_package_info cur_pkg_name), (get_package_info new_pkg_name) with
  | (some cb, some cv), (some nb, some nv) =>
    if cb.isEmpty || cv.isEmpty || nb.isEmpty || nv.isEmpty then
      (policy, some (.valueError "Unable to update policy name!"))
    else
      ({ name := pyReplace (pyReplace policy.name cb nb) cv nv }, none)
  | _, _ => (policy, some (.valueError "Unable to update policy name!"))

/-! ## `fnmatch.fnmatchcase` and `tools.wildcard_search`

`fnmatch.translate` turns the glob into a regex: `*` becomes `.*`, `?`
becomes `.`, `[seq]`/`[!seq]` become character classes (a `]` directly
after `[` or `[!` is a literal member; an unterminated `[` is a literal
`[`), everything else is escaped, and the whole regex is anchored with
`\Z` under DOTALL.  We implement that matcher directly. -/

/-- Membership of a character in a glob/regex character class body:
`a-b` (with a character on both sides) is a range, otherwise characters
are literal. -/
def charInSet : List Char → Char → Bool
  | a :: '-' :: b :: rest, c => (a ≤ c && c ≤ b) || charInSet rest c
  | a :: rest, c => a == c || charInSet rest c
  | [], _ => false

/-- Scan a bracket set up to the terminating `]`; `none` when the set is
unterminated. -/
def scanSet (acc : List Char) : List Char → Option (List Char × List Char)
  | [] => none
  | ']' :: rest => some (acc.reverse, rest)
  | c :: rest => scanSet (c :: acc) rest

/-- Parse the body of a `[...]` set: negation flag, member characters,
and the pattern remainder. -/
def parseBracket (ps : List Char) : Option (Bool × List Char × List Char) :=
  let (neg, ps1) : Bool × List Char :=
    match ps with
    | '!' :: t => (true, t)
    | _ => (false, ps)
  match ps1 with
  | ']' :: t => (scanSet [']'] t).map (fun r => (neg, r.1, r.2))
  | _ => (scanSet [] ps1).map (fun r => (neg, r.1, r.2))

/-- The glob matcher behind `fnmatch.fnmatchcase pattern name`. -/
def globMatch : List Char → List Char → Bool
  | [], name => name.isEmpty
  | '*' :: ps, name =>
    globMatch ps name ||
      (match name with
       | [] => false
       | _ :: ns => globMatch ('*' :: ps) ns)
  | '?' :: ps, name =>
    (match name with
     | [] => false
     | _ :: ns => globMatch ps ns)
  | '[' :: ps, name =>
    (match parseBracket ps with
     | some (neg, set, rest) =>
       match name with
       | [] => false
       | c :: ns => (if neg then !charInSet set c else charInSet set c) && globMatch rest ns
     | none =>
       match name with
       | [] => false
       | c :: ns => ('[' == c) && globMatch ps ns)
  | p :: ps, name =>
    (match name with
     | [] => false
     | c :: ns => (p == c) && globMatch ps ns)
termination_by p n => (n.length, p.length)
decreasing_by all_goals simp_arith [Prod.lex_iff]

/-- `fnmatch.fnmatchcase(name, pattern)`. -/
def fnmatchcase (name pattern : String) : Bool :=
  globMatch pattern.toList name.toList

/-- `tools.wildcard_search` (identical copy in `jss_helper.py`): filter
the objects whose (optionally uppercased) name matches the glob. -/
def wildcard_search (objects : List JSSObject) (pattern : String)
    (case_sensitive : Bool) : List JSSObject :=
  let test_names :=
    if !case_sensitive then objects.map (fun obj => (obj, obj.name.toUpper))
    else objects.map (fun obj => (obj, obj.name))
  ((test_names.filter (fun tn => fnmatchcase tn.2 pattern)).map (·.1))

/-! ## The object resolver: `search_for_object`

`obj_method` (a jss.JSS search method such as `jss_connection.Package`)
is modelled as a `Lookup`: calling it with no argument fetches the whole
collection, calling it with a key fetches one object; either call may
raise `JSSGetError`. -/

/-- The backing lookup capability. -/
structure Lookup where
  fetchAll : Except PyError (List JSSObject)
  fetchOne : String → Except PyError JSSObject

/-- The characters `tools.WILDCARDS = "*?[]"`. -/
def WILDCARDS : String := "*?[]"

/-- `search` contains at least one wildcard character. -/
def hasWildcard (s : String) : Bool :=
  WILDCARDS.toList.any (fun w => s.toList.contains w)

/-- The re-fetch loop shared by both `search_for_object` versions: fetch
each wildcard match in full by name, skipping `JSSGetError` (`except
jss.JSSGetError: continue`); any other exception propagates. -/
def fetchEach (lookup : Lookup) (acc : List JSSObject) :
    List JSSObject → Except PyError (List JSSObject)
  | [] => .ok acc
  | obj :: rest =>
    match lookup.fetchOne obj.name with
    | .ok x => fetchEach lookup (acc ++ [x]) rest
    | .error .jssGetError => fetchEach lookup acc rest
    | .error e => .error e

namespace tools

/-- `tools.search_for_object`: wildcard searches go through
`wildcard_search` plus per-match re-fetch; exact searches catch
`JSSGetError` into an empty result list; an empty/absent search term
fetches everything, also catching `JSSGetError` into `[]`. -/
def search_for_object (lookup : Lookup) (search : Option String) :
    Except PyError (List JSSObject) :=
  match search with
  | some s =>
    if s.isEmpty then
      match lookup.fetchAll with
      | .ok objs => .ok objs
      | .error .jssGetError => .ok []
      | .error e => .error e
    else if hasWildcard s then
      match lookup.fetchAll with
      | .error e => .error e
      | .ok objs => fetchEach lookup [] (wildcard_search objs s true)
    else
      match lookup.fetchOne s with
      | .ok obj => .ok [obj]
      | .error .jssGetError => .ok []
      | .error e => .error e
  | none =>
    match lookup.fetchAll with
    | .ok objs => .ok objs
    | .error .jssGetError => .ok []
    | .error e => .error e

end tools

namespace jss_helper

/-- `jss_helper.search_for_object` (the older monolithic copy): same
logic as `tools.search_for_object`, but every caught-`JSSGetError` path
and an empty wildcard result produce the distinguished `None` instead of
an empty list. -/
def search_for_object (lookup : Lookup) (search : Option String) :
    Except PyError (Option (List JSSObject)) :=
  match search with
  | some s =>
    if s.isEmpty then
      match lookup.fetchAll with
      | .ok objs => .ok (some objs)
      | .error .jssGetError => .ok none
      | .error e => .error e
    else if hasWildcard s then
      match lookup.fetchAll with
      | .error e => .error e
      | .ok objs =>
        match fetchEach lookup [] (wildcard_search objs s true) with
        | .ok l => .ok (if l.isEmpty then none else some l)
        | .error e => .error e
    else
      match lookup.fetchOne s with
      | .ok obj => .ok (some [obj])
      | .error .jssGetError => .ok none
      | .error e => .error e
  | none =>
    match lookup.fetchAll with
    | .ok objs => .ok (some objs)
    | .error .jssGetError => .ok none
    | .error e => .error e

end jss_helper

/-! ## Containers, scanning and scope -/

/-- A reference subelement inside a container: `findtext("id")` and
`findtext("name")` of the element (absent subelements give `None`). -/
structure RefElement where
  idText : Option String
  nameText : Option String
deriving DecidableEq, Repr

/-- The container kinds `tools.py` dispatches on with `isinstance`. -/
inductive CKind where
  | policy
  | osxProfile
  | mdProfile
  | otherKind
deriving DecidableEq, Repr

/-- A container-type JSS object: its Python class (`kind`), identity,
and its XML accessors — `refs p` models `findall(p)` and `texts p`
models `findtext(p)`. -/
structure Container where
  kind : CKind
  id : String
  name : String
  refs : String → List RefElement
  texts : String → Option String

/-- Python `x in l` for an optional text against a list of strings
(`None in l` is false when `l` holds only strings). -/
def optIn (o : Option String) (l : List String) : Bool :=
  match o with
  | some s => l.any (fun x => x == s)
  | none => false

/-- `tools.find_objects_in_containers`: for each container, append the
container once for every reference element at `search_path` whose id is
among the target ids (`search_ids = [obj.id for obj in search_objects]`)
or whose name is among the target names. -/
def find_objects_in_containers (search_objects : List JSSObject)
    (search_path : String) (containers : List Container) : List Container :=
  containers.foldl
    (fun results obj =>
      (obj.refs search_path).foldl
        (fun results element =>
          if optIn element.idText (search_objects.map (·.id)) ||
              optIn element.nameText (search_objects.map (·.name)) then
            results ++ [obj]
          else results)
        results)
    []

/-- `tools.find_groups_in_scope`: the xpath local variable `search` is
only assigned inside the two `isinstance` branches; when neither branch
runs, evaluating `search` in the final call raises
`UnboundLocalError`. -/
def find_groups_in_scope (groups : List JSSObject) (scopables : List Container) :
    Except PyError (List Container) :=
  let search : Option String :=
    match scopables with
    | [] => none
    | c :: _ =>
      match c.kind with
      | .policy | .osxProfile => some "scope/computer_groups/computer_group"
      | .mdProfile => some "scope/mobile_device_groups/mobile_device_group"
      | .otherKind => none
  match search with
  | some path => .ok (find_objects_in_containers groups path scopables)
  | none => .error .unboundLocalError

/-- `tools.get_scoped_to_all`: keep computer-kind containers whose
`scope/all_computers` text is `"true"` and mobile-device-kind containers
whose `scope/all_mobile_devices` text is `"true"`; other kinds fall
through the `isinstance` chain. -/
def get_scoped_to_all (containers : List Container) : List Container :=
  containers.foldl
    (fun results container =>
      match container.kind with
      | .policy | .osxProfile =>
        if container.texts "scope/all_computers" = some "true" then
          results ++ [container]
        else results
      | .mdProfile =>
        if container.texts "scope/all_mobile_devices" = some "true" then
          results ++ [container]
        else results
      | .otherKind => results)
    []

/-! ## `tools.build_results_string` -/

/-- Python `str.rjust`-style right justification, as performed by the
format spec `{:>{width}}`. -/
def rjust (s : String) (w : Nat) : String :=
  if s.length < w then String.mk (List.replicate (w - s.length) ' ') ++ s else s

/-- `tools.build_results_string` for a list of JSS objects: optional
newline-terminated heading (skipped when falsy), then either
`"No results found."` or one aligned `ID/NAME` line per object, and a
final newline. -/
def build_results_string (heading : Option String) (results : List JSSObject) :
    String :=
  let headStr :=
    match heading with
    | some h => if h.isEmpty then "" else if h.endsWith "\n" then h else h ++ "\n"
    | none => ""
  let body :=
    if results.isEmpty then "No results found."
    else
      let width := (results.map (fun r => r.id.length)).foldl max 0
      String.intercalate "\n"
        (results.map (fun r => "ID: " ++ rjust r.id width ++ "\t" ++ "NAME: " ++ r.name))
  headStr ++ body ++ "\n"

/-! ## Supporting lemmas -/

theorem empty_string_append (s : String) : "" ++ s = s := rfl

theorem string_append_assoc (a b c : String) : a ++ b ++ c = a ++ (b ++ c) := by
  rcases a with ⟨d1⟩
  rcases b with ⟨d2⟩
  rcases c with ⟨d3⟩
  show String.mk (d1 ++ d2 ++ d3) = String.mk (d1 ++ (d2 ++ d3))
  rw [List.append_assoc]

/-- Accumulating `results.append(obj)` under a filter condition is
filtering followed by a constant map. -/
theorem foldl_append_if_eq_filter {α β : Type} (p : α → Bool) (obj : β) :
    ∀ (l : List α) (acc : List β),
      l.foldl (fun r e => if p e then r ++ [obj] else r) acc =
        acc ++ (l.filter p).map (fun _ => obj) := by
  intro l
  induction l with
  | nil => intro acc; simp
  | cons e l ih =>
    intro acc
    by_cases h : p e <;> simp [List.filter_cons, h, ih, List.append_assoc]

/-- A `foldl` whose step appends a block per element is a `flatMap`. -/
theorem foldl_append_blocks {α β : Type} (g : α → List β) :
    ∀ (l : List α) (acc : List β),
      l.foldl (fun r c => r ++ g c) acc = acc ++ l.flatMap g := by
  intro l
  induction l with
  | nil => intro acc; simp
  | cons c l ih => intro acc; simp [ih, List.append_assoc]

/-- `globMatch` against the sole pattern `*` accepts every name. -/
theorem globMatch_star (cs : List Char) : globMatch ['*'] cs = true := by
  induction cs with
  | nil => simp [globMatch]
  | cons c cs ih => rw [globMatch]; simp [ih]

/-- `fnmatchcase` against the pattern `"*"` accepts every name. -/
theorem fnmatchcase_star (s : String) : fnmatchcase s "*" = true := by
  have h : "*".toList = ['*'] := rfl
  rw [fnmatchcase, h]
  exact globMatch_star s.toList

/-- The Boolean filter predicate of `get_scoped_to_all`. -/
def scopedAllPred (c : Container) : Bool :=
  match c.kind with
  | .policy | .osxProfile => decide (c.texts "scope/all_computers" = some "true")
  | .mdProfile => decide (c.texts "scope/all_mobile_devices" = some "true")
  | .otherKind => false

/-- `get_scoped_to_all` is a filter. -/
theorem get_scoped_to_all_eq_filter (cs : List Container) :
    get_scoped_to_all cs = cs.filter scopedAllPred := by
  suffices h : ∀ (l : List Container) (acc : List Container),
      l.foldl
        (fun results container =>
          match container.kind with
          | .policy | .osxProfile =>
            if container.texts "scope/all_computers" = some "true" then
              results ++ [container]
            else results
          | .mdProfile =>
            if container.texts "scope/all_mobile_devices" = some "true" then
              results ++ [container]
            else results
          | .otherKind => results)
        acc = acc ++ l.filter scopedAllPred by
    simpa using h cs []
  intro l
  induction l with
  | nil => intro acc; simp
  | cons c l ih =>
    intro acc
    rw [List.foldl_cons, ih]
    rcases hk : c.kind with _ | _ | _ | _ <;>
      simp only [List.filter_cons, scopedAllPred, hk] <;>
      split <;> simp_all [List.append_assoc]

/-! ### Ordering facts for the loose version comparison -/

theorem linCmp_self {α : Type} [LinearOrder α] (a : α) : linCmp a a = .eq := by
  simp [linCmp]

theorem linCmp_eq_eq {α : Type} [LinearOrder α] {a b : α}
    (h : linCmp a b = .eq) : a = b := by
  unfold linCmp at h
  split at h
  · exact absurd h (by simp)
  · split at h
    · exact absurd h (by simp)
    · exact le_antisymm (le_of_not_lt ‹¬b < a›) (le_of_not_lt ‹¬a < b›)

theorem linCmp_gt_iff {α : Type} [LinearOrder α] {a b : α} :
    linCmp a b = .gt ↔ b < a := by
  unfold linCmp
  split
  · exact iff_of_false (by simp) (asymm ‹a < b›)
  · split
    · exact iff_of_true rfl ‹b < a›
    · exact iff_of_false (by simp) ‹¬b < a›

theorem linCmp_lt_iff {α : Type} [LinearOrder α] {a b : α} :
    linCmp a b = .lt ↔ a < b := by
  unfold linCmp
  split
  · exact iff_of_true rfl ‹a < b›
  · split <;> exact iff_of_false (by simp) ‹¬a < b›

theorem linCmp_swap {α : Type} [LinearOrder α] {a b : α} :
    linCmp a b = .lt ↔ linCmp b a = .gt := by
  rw [linCmp_lt_iff, linCmp_gt_iff]

theorem charListCmp_self : ∀ l : List Char, charListCmp l l = .eq
  | [] => rfl
  | c :: cs => by
    rw [charListCmp, linCmp_self, charListCmp_self cs]
    rfl

theorem charListCmp_eq_eq : ∀ {a b : List Char}, charListCmp a b = .eq → a = b
  | [], [], _ => rfl
  | [], _ :: _, h => absurd h (by simp [charListCmp])
  | _ :: _, [], h => absurd h (by simp [charListCmp])
  | a :: as, b :: bs, h => by
    rw [charListCmp] at h
    cases hab : linCmp a b with
    | eq =>
      rw [hab] at h
      simp only [Ordering.then] at h
      rw [linCmp_eq_eq hab, charListCmp_eq_eq h]
    | lt => rw [hab] at h; exact absurd h (by simp [Ordering.then])
    | gt => rw [hab] at h; exact absurd h (by simp [Ordering.then])

theorem charListCmp_swap : ∀ {a b : List Char},
    charListCmp a b = .lt ↔ charListCmp b a = .gt
  | [], [] => by simp [charListCmp]
  | [], _ :: _ => by simp [charListCmp]
  | _ :: _, [] => by simp [charListCmp]
  | a :: as, b :: bs => by
    rw [charListCmp, charListCmp]
    cases hab : linCmp a b with
    | eq =>
      have heq := linCmp_eq_eq hab
      subst heq
      rw [linCmp_self]
      simp only [Ordering.then]
      exact charListCmp_swap
    | lt =>
      rw [linCmp_swap.mp hab]
      simp [Ordering.then]
    | gt =>
      have h2 : linCmp b a = .lt := linCmp_swap.mpr hab
      rw [h2]
      simp [Ordering.then]

theorem charListCmp_gt_trans : ∀ {a b c : List Char},
    charListCmp a b = .gt → charListCmp b c = .gt → charListCmp a c = .gt
  | _, [], [], _, hbc => absurd hbc (by simp [charListCmp])
  | _, [], _ :: _, _, hbc => absurd hbc (by simp [charListCmp])
  | [], _ :: _, _, hab, _ => absurd hab (by simp [charListCmp])
  | _ :: _, _ :: _, [], _, _ => rfl
  | a :: as, b :: bs, c :: cs, hab, hbc => by
    rw [charListCmp] at hab hbc ⊢
    cases hab' : linCmp a b with
    | lt => rw [hab'] at hab; exact absurd hab (by simp [Ordering.then])
    | eq =>
      rw [hab'] at hab
      simp only [Ordering.then] at hab
      have heq := linCmp_eq_eq hab'
      subst heq
      cases hbc' : linCmp a c with
      | lt => rw [hbc'] at hbc; exact absurd hbc (by simp [Ordering.then])
      | eq =>
        rw [hbc'] at hbc
        simp only [Ordering.then] at hbc
        simp only [Ordering.then]
        exact charListCmp_gt_trans hab hbc
      | gt => rfl
    | gt =>
      cases hbc' : linCmp b c with
      | lt => rw [hbc'] at hbc; exact absurd hbc (by simp [Ordering.then])
      | eq =>
        have heq := linCmp_eq_eq hbc'
        subst heq
        rw [hab']
        rfl
      | gt =>
        have h3 : linCmp a c = .gt :=
          linCmp_gt_iff.mpr (lt_trans (linCmp_gt_iff.mp hbc') (linCmp_gt_iff.mp hab'))
        rw [h3]
        rfl

theorem vcompCmp_self : ∀ v : VComp, vcompCmp v v = .eq
  | .num _ => linCmp_self _
  | .chunk s => charListCmp_self s

theorem vcompCmp_eq_eq : ∀ {a b : VComp}, vcompCmp a b = .eq → a = b
  | .num _, .num _, h => by rw [linCmp_eq_eq h]
  | .chunk _, .chunk _, h => by rw [charListCmp_eq_eq h]
  | .num _, .chunk _, h => absurd h (by simp [vcompCmp])
  | .chunk _, .num _, h => absurd h (by simp [vcompCmp])

theorem vcompCmp_swap : ∀ {a b : VComp}, vcompCmp a b = .lt ↔ vcompCmp b a = .gt
  | .num _, .num _ => linCmp_swap
  | .chunk _, .chunk _ => charListCmp_swap
  | .num _, .chunk _ => by simp [vcompCmp]
  | .chunk _, .num _ => by simp [vcompCmp]

theorem vcompCmp_gt_trans : ∀ {a b c : VComp},
    vcompCmp a b = .gt → vcompCmp b c = .gt → vcompCmp a c = .gt
  | .num _, .num _, .num _, hab, hbc =>
    linCmp_gt_iff.mpr (lt_trans (linCmp_gt_iff.mp hbc) (linCmp_gt_iff.mp hab))
  | .chunk _, .chunk _, .chunk _, hab, hbc => charListCmp_gt_trans hab hbc
  | .chunk _, .num _, .num _, _, _ => rfl
  | .chunk _, .chunk _, .num _, _, _ => rfl
  | .chunk _, .num _, .chunk _, _, hbc => absurd hbc (by simp [vcompCmp])
  | .num _, .num _, .chunk _, _, hbc => absurd hbc (by simp [vcompCmp])
  | .num _, .chunk _, .num _, hab, _ => absurd hab (by simp [vcompCmp])
  | .num _, .chunk _, .chunk _, hab, _ => absurd hab (by simp [vcompCmp])

theorem vlistCmp_self : ∀ l : List VComp, vlistCmp l l = .eq
  | [] => rfl
  | v :: vs => by
    rw [vlistCmp, vcompCmp_self, vlistCmp_self vs]
    rfl

theorem vlistCmp_eq_eq : ∀ {a b : List VComp}, vlistCmp a b = .eq → a = b
  | [], [], _ => rfl
  | [], _ :: _, h => absurd h (by simp [vlistCmp])
  | _ :: _, [], h => absurd h (by simp [vlistCmp])
  | a :: as, b :: bs, h => by
    rw [vlistCmp] at h
    cases hab : vcompCmp a b with
    | eq =>
      rw [hab] at h
      simp only [Ordering.then] at h
      rw [vcompCmp_eq_eq hab, vlistCmp_eq_eq h]
    | lt => rw [hab] at h; exact absurd h (by simp [Ordering.then])
    | gt => rw [hab] at h; exact absurd h (by simp [Ordering.then])

theorem vlistCmp_swap : ∀ {a b : List VComp},
    vlistCmp a b = .lt ↔ vlistCmp b a = .gt
  | [], [] => by simp [vlistCmp]
  | [], _ :: _ => by simp [vlistCmp]
  | _ :: _, [] => by simp [vlistCmp]
  | a :: as, b :: bs => by
    rw [vlistCmp, vlistCmp]
    cases hab : vcompCmp a b with
    | eq =>
      have heq := vcompCmp_eq_eq hab
      subst heq
      rw [vcompCmp_self]
      simp only [Ordering.then]
      exact vlistCmp_swap
    | lt =>
      rw [vcompCmp_swap.mp hab]
      simp [Ordering.then]
    | gt =>
      have h2 : vcompCmp b a = .lt := vcompCmp_swap.mpr hab
      rw [h2]
      simp [Ordering.then]

theorem vlistCmp_gt_trans : ∀ {a b c : List VComp},
    vlistCmp a b = .gt → vlistCmp b c = .gt → vlistCmp a c = .gt
  | _, [], [], _, hbc => absurd hbc (by simp [vlistCmp])
  | _, [], _ :: _, _, hbc => absurd hbc (by simp [vlistCmp])
  | [], _ :: _, _, hab, _ => absurd hab (by simp [vlistCmp])
  | _ :: _, _ :: _, [], _, _ => rfl
  | a :: as, b :: bs, c :: cs, hab, hbc => by
    rw [vlistCmp] at hab hbc ⊢
    cases hab' : vcompCmp a b with
    | lt => rw [hab'] at hab; exact absurd hab (by simp [Ordering.then])
    | eq =>
      rw [hab'] at hab
      simp only [Ordering.then] at hab
      have heq := vcompCmp_eq_eq hab'
      subst heq
      cases hbc' : vcompCmp a c with
      | lt => rw [hbc'] at hbc; exact absurd hbc (by simp [Ordering.then])
      | eq =>
        rw [hbc'] at hbc
        simp only [Ordering.then] at hbc
        simp only [Ordering.then]
        exact vlistCmp_gt_trans hab hbc
      | gt => rfl
    | gt =>
      cases hbc' : vcompCmp b c with
      | lt => rw [hbc'] at hbc; exact absurd hbc (by simp [Ordering.then])
      | eq =>
        have heq := vcompCmp_eq_eq hbc'
        subst heq
        rw [hab']
        rfl
      | gt =>
        have h3 : vcompCmp a c = .gt := vcompCmp_gt_trans hab' hbc'
        rw [h3]
        rfl

theorem looseCmp_self_ne_gt (a : String) : looseCmp a a ≠ .gt := by
  rw [looseCmp, vlistCmp_self]
  simp

theorem looseCmp_gt_trans {a b c : String}
    (hab : looseCmp a b = .gt) (hbc : looseCmp b c = .gt) :
    looseCmp a c = .gt :=
  vlistCmp_gt_trans hab hbc

/-- Transitivity of "not greater" for the loose comparison. -/
theorem looseCmp_le_trans {v x m : String}
    (hvx : looseCmp v x ≠ .gt) (hxm : looseCmp x m ≠ .gt) :
    looseCmp v m ≠ .gt := by
  intro hvm
  cases hxv : vlistCmp (looseParse x) (looseParse v) with
  | gt =>
    exact hxm (vlistCmp_gt_trans hxv hvm)
  | eq =>
    rw [looseCmp] at hvm hxm
    rw [vlistCmp_eq_eq hxv] at hxm
    exact hxm hvm
  | lt =>
    exact hvx (vlistCmp_swap.mp hxv)

/-- Python `max` over loose versions picks a member, and no member
compares strictly greater than it. -/
theorem pyMaxLoose_spec : ∀ (l : List String) (x : String),
    pyMaxLoose l x ∈ x :: l ∧
      ∀ y ∈ x :: l, looseCmp y (pyMaxLoose l x) ≠ .gt := by
  intro l
  induction l with
  | nil =>
    intro x
    refine ⟨List.mem_cons_self x [], ?_⟩
    intro y hy
    rw [List.mem_singleton] at hy
    subst hy
    exact looseCmp_self_ne_gt y
  | cons v vs ih =>
    intro x
    have hstep : pyMaxLoose (v :: vs) x =
        pyMaxLoose vs (if looseCmp v x = .gt then v else x) := rfl
    by_cases hvx : looseCmp v x = .gt
    · obtain ⟨hmem, hbound⟩ := ih v
      rw [hstep, if_pos hvx]
      refine ⟨List.mem_cons_of_mem x hmem, ?_⟩
      intro y hy
      rcases List.mem_cons.mp hy with hyx | hyrest
      · subst hyx
        intro hge
        exact hbound v (List.mem_cons_self v vs)
          (looseCmp_gt_trans hvx hge)
      · exact hbound y hyrest
    · obtain ⟨hmem, hbound⟩ := ih x
      rw [hstep, if_neg hvx]
      rcases List.mem_cons.mp hmem with hmx | hmvs
      · refine ⟨by rw [hmx]; exact List.mem_cons_self x (v :: vs), ?_⟩
        · intro y hy
          rcases List.mem_cons.mp hy with hyx | hyrest
          · rw [hyx]; exact hbound x (List.mem_cons_self x vs)
          · rcases List.mem_cons.mp hyrest with hyv | hyvs
            · rw [hyv]
              exact looseCmp_le_trans hvx (hbound x (List.mem_cons_self x vs))
            · exact hbound y (List.mem_cons_of_mem x hyvs)
      · refine ⟨List.mem_cons_of_mem x (List.mem_cons_of_mem v hmvs), ?_⟩
        intro y hy
        rcases List.mem_cons.mp hy with hyx | hyrest
        · rw [hyx]; exact hbound x (List.mem_cons_self x vs)
        · rcases List.mem_cons.mp hyrest with hyv | hyvs
          · rw [hyv]
            exact looseCmp_le_trans hvx (hbound x (List.mem_cons_self x vs))
          · exact hbound y (List.mem_cons_of_mem x hyvs)

/-! ### Dictionary facts for `get_newest_pkg` -/

theorem getLast?_cons_or {α : Type} (a : α) (l : List α) :
    (a :: l).getLast? = (l.getLast?).or (some a) := by
  rw [List.getLast?_cons]
  cases h : l.getLast? <;> simp [Option.or]

theorem find?_map_replace_self (k v : String) :
    ∀ d : List (String × String), d.any (fun p => p.1 == k) = true →
      (d.map (fun p => if p.1 == k then (k, v) else p)).find?
        (fun p => p.1 == k) = some (k, v) := by
  intro d
  induction d with
  | nil => intro h; simp at h
  | cons p d ih =>
    intro h
    rw [List.map_cons]
    by_cases hp1 : p.1 = k
    · rw [if_pos (show (p.1 == k) = true by simp [hp1])]
      exact List.find?_cons_of_pos _ (by simp)
    · rw [if_neg (show ¬(p.1 == k) = true by simp [hp1])]
      have e : List.find? (fun q => q.1 == k)
          (p :: d.map (fun q => if q.1 == k then (k, v) else q)) =
          List.find? (fun q => q.1 == k)
            (d.map (fun q => if q.1 == k then (k, v) else q)) :=
        List.find?_cons_of_neg _ (by simp [hp1])
      rw [e]
      refine ih ?_
      rw [List.any_cons] at h
      simpa [hp1] using h

theorem find?_map_replace_ne (k v k' : String) (hne : k' ≠ k) :
    ∀ d : List (String × String),
      (d.map (fun p => if p.1 == k then (k, v) else p)).find?
        (fun p => p.1 == k') = d.find? (fun p => p.1 == k') := by
  intro d
  induction d with
  | nil => rfl
  | cons p d ih =>
    rw [List.map_cons]
    by_cases hp1 : p.1 = k
    · rw [if_pos (show (p.1 == k) = true by simp [hp1])]
      have e1 : List.find? (fun q => q.1 == k')
          (((k, v) : String × String) ::
            d.map (fun q => if q.1 == k then (k, v) else q)) =
          List.find? (fun q => q.1 == k')
            (d.map (fun q => if q.1 == k then (k, v) else q)) :=
        List.find?_cons_of_neg _ (by simp [Ne.symm hne])
      have e2 : List.find? (fun q => q.1 == k') (p :: d) =
          List.find? (fun q => q.1 == k') d :=
        List.find?_cons_of_neg _ (by simp [hp1, Ne.symm hne])
      rw [e1, e2]
      exact ih
    · rw [if_neg (show ¬(p.1 == k) = true by simp [hp1])]
      by_cases hp1' : p.1 = k'
      · have e : ∀ l : List (String × String),
            List.find? (fun q => q.1 == k') (p :: l) = some p :=
          fun l => List.find?_cons_of_pos _ (by simp [hp1'])
        rw [e, e]
      · have e1 : List.find? (fun q => q.1 == k')
            (p :: d.map (fun q => if q.1 == k then (k, v) else q)) =
            List.find? (fun q => q.1 == k')
              (d.map (fun q => if q.1 == k then (k, v) else q)) :=
          List.find?_cons_of_neg _ (by simp [hp1'])
        have e2 : List.find? (fun q => q.1 == k') (p :: d) =
            List.find? (fun q => q.1 == k') d :=
          List.find?_cons_of_neg _ (by simp [hp1'])
        rw [e1, e2]
        exact ih

theorem dictFind_dictInsert_self (d : List (String × String)) (k v : String) :
    dictFind (dictInsert d k v) k = some v := by
  unfold dictInsert dictFind
  split
  · rw [find?_map_replace_self k v d ‹_›]
    rfl
  · rw [List.find?_append, List.find?_eq_none.mpr ?nf]
    case nf =>
      intro x hx hpx
      exact ‹¬_› (List.any_eq_true.mpr ⟨x, hx, hpx⟩)
    rw [Option.none_or, List.find?_cons_of_pos _ (by simp)]
    rfl

theorem dictFind_dictInsert_ne (d : List (String × String)) (k v k' : String)
    (hne : k' ≠ k) : dictFind (dictInsert d k v) k' = dictFind d k' := by
  unfold dictInsert dictFind
  split
  · rw [find?_map_replace_ne k v k' hne d]
  · rw [List.find?_append]
    have h2 : [(k, v)].find? (fun p => p.1 == k') = none := by
      rw [List.find?_eq_none]
      intro x hx
      rw [List.mem_singleton] at hx
      subst hx
      simp [beq_eq_false_iff_ne, Ne.symm hne]
    rw [h2, Option.or_none]

theorem keys_map_replace (k v : String) (d : List (String × String)) :
    (d.map (fun p => if p.1 == k then (k, v) else p)).map (·.1) =
      d.map (·.1) := by
  induction d with
  | nil => rfl
  | cons p d ih =>
    by_cases hp1 : p.1 = k
    · rw [List.map_cons, if_pos (show (p.1 == k) = true by simp [hp1]),
        List.map_cons, List.map_cons, ih]
      rw [show ((k, v) : String × String).1 = p.1 from hp1.symm]
    · rw [List.map_cons, if_neg (show ¬(p.1 == k) = true by simp [hp1]),
        List.map_cons, List.map_cons, ih]

theorem keys_dictInsert_self (d : List (String × String)) (k v : String) :
    k ∈ (dictInsert d k v).map (·.1) := by
  unfold dictInsert
  split
  · rw [keys_map_replace]
    obtain ⟨p, hp, hbk⟩ := List.any_eq_true.mp ‹_›
    exact List.mem_map.mpr ⟨p, hp, eq_of_beq hbk⟩
  · simp

theorem keys_dictInsert_mono (d : List (String × String)) (k v k' : String)
    (h : k' ∈ d.map (·.1)) : k' ∈ (dictInsert d k v).map (·.1) := by
  unfold dictInsert
  split
  · rw [keys_map_replace]
    exact h
  · rw [List.map_append]
    exact List.mem_append_left _ h

theorem keys_foldl_mono (k : String) : ∀ (opts : List String)
    (acc : List (String × String)), k ∈ acc.map (·.1) →
    k ∈ (opts.foldl dictStep acc).map (·.1) := by
  intro opts
  induction opts with
  | nil => intro acc h; exact h
  | cons q rest ih =>
    intro acc h
    rw [List.foldl_cons]
    refine ih (dictStep acc q) ?_
    rw [dictStep]
    cases hsk : stepKey q with
    | none => exact h
    | some v => exact keys_dictInsert_mono acc v q k h

theorem stepKey_mem_keys (p w : String) : ∀ (opts : List String)
    (acc : List (String × String)), p ∈ opts → stepKey p = some w →
    w ∈ (opts.foldl dictStep acc).map (·.1) := by
  intro opts
  induction opts with
  | nil => intro acc hp; exact absurd hp (List.not_mem_nil p)
  | cons q rest ih =>
    intro acc hp hsk
    rw [List.foldl_cons]
    rcases List.mem_cons.mp hp with hq | hrest
    · refine keys_foldl_mono w rest (dictStep acc q) ?_
      rw [← hq, dictStep, hsk]
      exact keys_dictInsert_self acc w p
    · exact ih (dictStep acc q) hrest hsk

/-- The dict built by `get_newest_pkg` maps each version key to the last
package name in `options` contributing that key. -/
theorem dictFind_foldl (k : String) : ∀ (opts : List String)
    (acc : List (String × String)),
    dictFind (opts.foldl dictStep acc) k =
      ((opts.filter (fun p => stepKey p == some k)).getLast?).or
        (dictFind acc k) := by
  intro opts
  induction opts with
  | nil => intro acc; rw [List.foldl_nil, List.filter_nil, List.getLast?_nil, Option.none_or]
  | cons p rest ih =>
    intro acc
    rw [List.foldl_cons, ih (dictStep acc p), List.filter_cons]
    cases hsk : stepKey p with
    | none =>
      have hc : ((none : Option String) == some k) = false := rfl
      rw [if_neg (show ¬((none : Option String) == some k) = true by
        rw [hc]; exact Bool.false_ne_true), dictStep, hsk]
    | some v =>
      by_cases hvk : v = k
      · subst hvk
        rw [if_pos (show ((some v : Option String) == some v) = true by simp),
          dictStep, hsk, dictFind_dictInsert_self acc v p,
          getLast?_cons_or, Option.or_assoc, Option.or_some]
      · rw [if_neg (show ¬((some v : Option String) == some k) = true by simp [hvk]),
          dictStep, hsk, dictFind_dictInsert_ne acc v p k (Ne.symm hvk)]

/-- The characterization of the finished dict at any key. -/
theorem dictFind_buildVersions (options : List String) (k : String) :
    dictFind (buildVersions options) k =
      (options.filter (fun p => stepKey p == some k)).getLast? := by
  rw [buildVersions, dictFind_foldl]
  rw [show dictFind [] k = none from rfl, Option.or_none]

/-- When no package name parses, the dict stays empty. -/
theorem buildVersions_eq_nil : ∀ (opts : List String),
    (∀ p ∈ opts, stepKey p = none) → opts.foldl dictStep [] = [] := by
  have general : ∀ (opts : List String) (acc : List (String × String)),
      (∀ p ∈ opts, stepKey p = none) → opts.foldl dictStep acc = acc := by
    intro opts
    induction opts with
    | nil => intro acc _; rfl
    | cons q rest ih =>
      intro acc h
      rw [List.foldl_cons, dictStep, h q (List.mem_cons_self q rest)]
      exact ih acc (fun p hp => h p (List.mem_cons_of_mem q hp))
  exact fun opts h => general opts [] h

/-- A parsed version group is never the empty string (the regex version
group starts with at least one digit). -/
theorem findSplitAux_snd_ne_nil (core : List Char) : ∀ (n : Nat)
    (b v : List Char), findSplitAux core n = some (b, v) → v ≠ [] := by
  intro n
  induction n with
  | zero => intro b v h; exact absurd h (by rw [findSplitAux]; simp)
  | succ m ih =>
    intro b v h
    rw [findSplitAux] at h
    rcases hd : core.drop (m + 1) with _ | ⟨sep, _ | ⟨v1, vrest⟩⟩
    · rw [hd] at h; exact ih b v h
    · rw [hd] at h; exact ih b v h
    · have h' : (if ((core.take (m + 1)).all isBasenameChar && isSepChar sep &&
          v1.isDigit && vrest.all isVersionChar) = true then
            some (core.take (m + 1), v1 :: vrest)
          else findSplitAux core m) = some (b, v) := by
        rw [hd] at h; exact h
      split at h'
      · have heq := Option.some.inj h'
        injection heq with hb hv
        rw [← hv]
        simp
      · exact ih b v h'

theorem get_package_info_version_ne_empty {s v : String}
    (h : (get_package_info s).2 = some v) : v ≠ "" := by
  unfold get_package_info at h
  split at h
  · simp at h
  · split at h
    · rename_i el b vl hsplit
      have hvl : vl ≠ [] := findSplitAux_snd_ne_nil _ _ b vl hsplit
      simp only at h
      rw [← Option.some.inj h]
      intro hmk
      exact hvl (by simpa using congrArg String.data hmk)
    · simp at h

/-- The dict guard is equivalent to plain version parsing, because a
parsed version is never falsy. -/
theorem stepKey_eq_version (p w : String) :
    stepKey p = some w ↔ (get_package_info p).2 = some w := by
  rw [stepKey]
  cases hv : (get_package_info p).2 with
  | none => simp
  | some u =>
    have hne : u ≠ "" := get_package_info_version_ne_empty hv
    simp [hne]

theorem stepKey_beq_version (p k : String) :
    (stepKey p == some k) = ((get_package_info p).2 == some k) := by
  cases hs : stepKey p with
  | some w =>
    rw [(stepKey_eq_version p w).mp hs]
  | none =>
    cases hv : (get_package_info p).2 with
    | none => rfl
    | some u =>
      exact absurd ((stepKey_eq_version p u).mpr hv) (by rw [hs]; simp)

/-! ## The claims -/

/-- C4: `get_package_info "Nethack-3.4.3.pkg"` yields basename
`"Nethack"` and version `"3.4.3"`; `get_package_info "not_a_valid_name"`
yields `(none, none)`; and for every input the two components are either
both present or both absent. -/
theorem C4_get_package_info_both_or_neither :
    get_package_info "Nethack-3.4.3.pkg" = (some "Nethack", some "3.4.3") ∧
    get_package_info "not_a_valid_name" = (none, none) ∧
    ∀ s : String,
      (∃ b v, get_package_info s = (some b, some v)) ∨
        get_package_info s = (none, none) := by
  refine ⟨by decide, by decide, ?_⟩
  intro s
  unfold get_package_info
  split
  · exact Or.inr rfl
  · split
    · exact Or.inl ⟨_, _, rfl⟩
    · exact Or.inr rfl

/-- C2: promoting `Nethack-3.4.3.pkg` to `Nethack-3.4.4.pkg` renames the
policy `"Install Nethack-3.4.3"` to `"Install Nethack-3.4.4"`; when any
of the four parsed parts is absent, `update_name` raises `ValueError`
and leaves the policy unchanged. -/
theorem C2_update_name_rename_or_fail :
    update_name ⟨"Install Nethack-3.4.3"⟩ "Nethack-3.4.3.pkg" "Nethack-3.4.4.pkg" =
      (⟨"Install Nethack-3.4.4"⟩, none) ∧
    ∀ (policy : Policy) (cur_pkg new_pkg : String),
      ((get_package_info cur_pkg).1 = none ∨ (get_package_info cur_pkg).2 = none ∨
        (get_package_info new_pkg).1 = none ∨ (get_package_info new_pkg).2 = none) →
      update_name policy cur_pkg new_pkg =
        (policy, some (.valueError "Unable to update policy name!")) := by
  refine ⟨by decide, ?_⟩
  intro policy cur_pkg new_pkg h
  rcases hc : get_package_info cur_pkg with ⟨c1, c2⟩
  rcases hn : get_package_info new_pkg with ⟨n1, n2⟩
  rw [hc, hn] at h
  simp only [update_name, hc, hn]
  cases c1 <;> cases c2 <;> cases n1 <;> cases n2 <;> simp_all

/-- The hypothesis-discharging instantiation of
`C2_update_name_rename_or_fail`: `"not_a_valid_name"` has no parseable
version, so the policy name survives and `ValueError` is raised. -/
theorem C2_update_name_rename_or_fail_witness :
    update_name ⟨"Install X"⟩ "not_a_valid_name" "Nethack-3.4.4.pkg" =
      (⟨"Install X"⟩, some (.valueError "Unable to update policy name!")) :=
  C2_update_name_rename_or_fail.2 ⟨"Install X"⟩ "not_a_valid_name" "Nethack-3.4.4.pkg"
    (Or.inl (by decide))

/-- C7: a wildcard search with the pattern `"*"` (case-sensitively)
returns the input collection unchanged: same objects, same order, no
deduplication. -/
theorem C7_wildcard_search_star_identity (objects : List JSSObject) :
    wildcard_search objects "*" true = objects := by
  simp only [wildcard_search, Bool.not_true]
  rw [if_neg (by simp)]
  simp only [fnmatchcase_star, List.filter_map]
  induction objects with
  | nil => rfl
  | cons o os ih => simpa using ih

/-- C10: `find_groups_in_scope` leaves its xpath variable unassigned and
dies with `UnboundLocalError` when the scopables list is empty or its
first element is of an unrecognized kind, instead of returning an empty
result. -/
theorem C10_find_groups_in_scope_unbound :
    (∀ groups : List JSSObject,
      find_groups_in_scope groups [] = .error .unboundLocalError) ∧
    ∀ (groups : List JSSObject) (c : Container) (rest : List Container),
      c.kind = .otherKind →
      find_groups_in_scope groups (c :: rest) = .error .unboundLocalError := by
  constructor
  · intro groups; rfl
  · intro groups c rest hk
    simp only [find_groups_in_scope, hk]

/-- The hypothesis-discharging instantiation of
`C10_find_groups_in_scope_unbound` at a mobile-device-group-like
container (not one of the three scopable classes). -/
theorem C10_find_groups_in_scope_unbound_witness :
    find_groups_in_scope []
      [{ kind := .otherKind, id := "3", name := "md group",
         refs := fun _ => [], texts := fun _ => none }] =
      .error .unboundLocalError :=
  C10_find_groups_in_scope_unbound.2 []
    { kind := .otherKind, id := "3", name := "md group",
      refs := fun _ => [], texts := fun _ => none } [] rfl

/-- C5: `get_scoped_to_all` returns a subsequence of its input (order
kept, nothing mutated) all of whose members are computer-kind containers
with `scope/all_computers` text `"true"` or mobile-device-kind
containers with `scope/all_mobile_devices` text `"true"`; unrecognized
kinds never appear. -/
theorem C5_get_scoped_to_all_partition (cs : List Container) :
    (get_scoped_to_all cs).Sublist cs ∧
    ∀ c ∈ get_scoped_to_all cs,
      ((c.kind = .policy ∨ c.kind = .osxProfile) ∧
        c.texts "scope/all_computers" = some "true") ∨
      (c.kind = .mdProfile ∧ c.texts "scope/all_mobile_devices" = some "true") := by
  rw [get_scoped_to_all_eq_filter]
  refine ⟨List.filter_sublist cs, ?_⟩
  intro c hc
  have hp := List.of_mem_filter hc
  rcases hk : c.kind with _ | _ | _ | _ <;> rw [scopedAllPred, hk] at hp <;>
    simp_all

/-- The hypothesis-discharging instantiation of
`C5_get_scoped_to_all_partition`: a policy scoped to all computers is in
its own scan result and satisfies the partition property. -/
theorem C5_get_scoped_to_all_partition_witness :
    ((Container.mk .policy "1" "p" (fun _ => [])
        (fun path => if path = "scope/all_computers" then some "true" else none)).kind = .policy ∨
      (Container.mk .policy "1" "p" (fun _ => [])
        (fun path => if path = "scope/all_computers" then some "true" else none)).kind = .osxProfile) ∧
      (Container.mk .policy "1" "p" (fun _ => [])
        (fun path => if path = "scope/all_computers" then some "true" else none)).texts
        "scope/all_computers" = some "true" := by
  have h := (C5_get_scoped_to_all_partition
    [Container.mk .policy "1" "p" (fun _ => [])
      (fun path => if path = "scope/all_computers" then some "true" else none)]).2
    (Container.mk .policy "1" "p" (fun _ => [])
      (fun path => if path = "scope/all_computers" then some "true" else none))
    (by simp [get_scoped_to_all])
  rcases h with h | h
  · exact h
  · exact absurd h.1 (by simp)

/-- C1: the container scan returns, in input container order, one
occurrence of each container per reference element at the search path
whose id text is among the target ids or whose name text is among the
target names; a container with several matching references is emitted
several times. -/
theorem C1_find_objects_in_containers_per_reference
    (search_objects : List JSSObject) (search_path : String)
    (containers : List Container) :
    find_objects_in_containers search_objects search_path containers =
      containers.flatMap (fun c =>
        ((c.refs search_path).filter (fun e =>
          optIn e.idText (search_objects.map (·.id)) ||
            optIn e.nameText (search_objects.map (·.name)))).map (fun _ => c)) := by
  unfold find_objects_in_containers
  suffices h : ∀ (l : List Container) (acc : List Container),
      l.foldl
        (fun results obj =>
          (obj.refs search_path).foldl
            (fun results element =>
              if optIn element.idText (search_objects.map (·.id)) ||
                  optIn element.nameText (search_objects.map (·.name)) then
                results ++ [obj]
              else results)
            results)
        acc =
      acc ++ l.flatMap (fun c =>
        ((c.refs search_path).filter (fun e =>
          optIn e.idText (search_objects.map (·.id)) ||
            optIn e.nameText (search_objects.map (·.name)))).map (fun _ => c)) by
    simpa using h containers []
  intro l
  induction l with
  | nil => intro acc; simp
  | cons c l ih =>
    intro acc
    rw [List.foldl_cons, ih, foldl_append_if_eq_filter]
    simp [List.append_assoc]

/-- `fetchEach` under only-`JSSGetError` failures: failed re-fetches are
dropped and the successful ones returned in order. -/
theorem fetchEach_ok_filterMap (lookup : Lookup) :
    ∀ (l : List JSSObject) (acc : List JSSObject),
      (∀ o ∈ l, ∀ e, lookup.fetchOne o.name = .error e → e = .jssGetError) →
      fetchEach lookup acc l =
        .ok (acc ++ l.filterMap (fun o => (lookup.fetchOne o.name).toOption)) := by
  intro l
  induction l with
  | nil => intro acc _; simp [fetchEach]
  | cons o rest ih =>
    intro acc h
    rw [fetchEach]
    cases hf : lookup.fetchOne o.name with
    | ok x =>
      show fetchEach lookup (acc ++ [x]) rest = _
      rw [ih (acc ++ [x]) (fun o ho => h o (List.mem_cons_of_mem _ ho))]
      simp [List.filterMap_cons, hf, Except.toOption]
    | error e =>
      have he : e = .jssGetError := h o (List.mem_cons_self o rest) e hf
      subst he
      show fetchEach lookup acc rest = _
      rw [ih acc (fun o ho => h o (List.mem_cons_of_mem _ ho))]
      simp [List.filterMap_cons, hf, Except.toOption]

/-- C6: the resolver never propagates a not-found error from the backing
lookup: an exact search whose lookup raises `JSSGetError` yields the
empty (not-found) result, and in a wildcard search every match whose
re-fetch raises `JSSGetError` is skipped while the remaining matches are
returned. -/
theorem C6_search_for_object_swallows_not_found :
    (∀ (lookup : Lookup) (s : String),
      s.isEmpty = false → hasWildcard s = false →
      lookup.fetchOne s = .error .jssGetError →
      tools.search_for_object lookup (some s) = .ok []) ∧
    ∀ (lookup : Lookup) (s : String) (objs : List JSSObject),
      s.isEmpty = false → hasWildcard s = true →
      lookup.fetchAll = .ok objs →
      (∀ o ∈ wildcard_search objs s true, ∀ e,
        lookup.fetchOne o.name = .error e → e = .jssGetError) →
      tools.search_for_object lookup (some s) =
        .ok ((wildcard_search objs s true).filterMap
          (fun o => (lookup.fetchOne o.name).toOption)) := by
  constructor
  · intro lookup s hs hw hf
    simp [tools.search_for_object, hs, hw, hf]
  · intro lookup s objs hs hw hall herr
    simp only [tools.search_for_object, hs, hw, hall, Bool.false_eq_true,
      if_false, if_true]
    rw [fetchEach_ok_filterMap lookup _ [] herr]
    simp

/-- The hypothesis-discharging instantiation of
`C6_search_for_object_swallows_not_found` on a lookup whose individual
fetches always raise `JSSGetError`. -/
theorem C6_search_for_object_swallows_not_found_witness :
    tools.search_for_object
        ⟨.ok [⟨"1", "foo"⟩], fun _ => .error .jssGetError⟩ (some "foo") = .ok [] ∧
    tools.search_for_object
        ⟨.ok [⟨"1", "foo"⟩], fun _ => .error .jssGetError⟩ (some "f*") =
      .ok ((wildcard_search [⟨"1", "foo"⟩] "f*" true).filterMap
        (fun o => ((⟨.ok [⟨"1", "foo"⟩], fun _ => .error .jssGetError⟩ : Lookup).fetchOne
          o.name).toOption)) :=
  ⟨C6_search_for_object_swallows_not_found.1 _ "foo" (by decide) (by decide) rfl,
   C6_search_for_object_swallows_not_found.2 _ "f*" [⟨"1", "foo"⟩]
     (by decide) (by decide) rfl
     (fun _ _ e he => (Except.error.inj he).symm)⟩

/-- C9: the two resolver implementations agree on every search that
matches at least one object, and otherwise differ exactly in the
not-found representation: `tools.py` answers `[]` where `jss_helper.py`
answers `None`. -/
theorem C9_search_for_object_refinement :
    (∀ (lookup : Lookup) (search : Option String),
      jss_helper.search_for_object lookup search =
          (tools.search_for_object lookup search).map some ∨
        (tools.search_for_object lookup search = .ok [] ∧
          jss_helper.search_for_object lookup search = .ok none)) ∧
    ∀ (lookup : Lookup) (search : Option String) (l : List JSSObject),
      tools.search_for_object lookup search = .ok l → l ≠ [] →
      jss_helper.search_for_object lookup search = .ok (some l) := by
  have main : ∀ (lookup : Lookup) (search : Option String),
      jss_helper.search_for_object lookup search =
          (tools.search_for_object lookup search).map some ∨
        (tools.search_for_object lookup search = .ok [] ∧
          jss_helper.search_for_object lookup search = .ok none) := by
    intro lookup search
    cases search with
    | none =>
      cases hall : lookup.fetchAll with
      | ok objs =>
        left; simp [tools.search_for_object, jss_helper.search_for_object, hall, Except.map]
      | error e =>
        cases e <;>
          simp [tools.search_for_object, jss_helper.search_for_object, hall, Except.map]
    | some s =>
      cases hs : s.isEmpty with
      | true =>
        cases hall : lookup.fetchAll with
        | ok objs =>
          left; simp [tools.search_for_object, jss_helper.search_for_object, hs, hall, Except.map]
        | error e =>
          cases e <;>
            simp [tools.search_for_object, jss_helper.search_for_object, hs, hall, Except.map]
      | false =>
        cases hw : hasWildcard s with
        | true =>
          cases hall : lookup.fetchAll with
          | ok objs =>
            cases hfe : fetchEach lookup [] (wildcard_search objs s true) with
            | ok l =>
              cases l with
              | nil =>
                right
                simp [tools.search_for_object, jss_helper.search_for_object, hs, hw, hall, hfe]
              | cons x xs =>
                left
                simp [tools.search_for_object, jss_helper.search_for_object, hs, hw, hall, hfe,
                  Except.map]
            | error e =>
              left
              simp [tools.search_for_object, jss_helper.search_for_object, hs, hw, hall, hfe,
                Except.map]
          | error e =>
            left
            simp [tools.search_for_object, jss_helper.search_for_object, hs, hw, hall, Except.map]
        | false =>
          cases hf : lookup.fetchOne s with
          | ok obj =>
            left
            simp [tools.search_for_object, jss_helper.search_for_object, hs, hw, hf, Except.map]
          | error e =>
            cases e <;>
              simp [tools.search_for_object, jss_helper.search_for_object, hs, hw, hf, Except.map]
  refine ⟨main, ?_⟩
  intro lookup search l hok hne
  rcases main lookup search with h | ⟨h1, h2⟩
  · rw [h, hok]; rfl
  · rw [hok] at h1
    exact absurd (Except.ok.inj h1) hne

/-- The hypothesis-discharging instantiation of
`C9_search_for_object_refinement`: a fetch-all with one result is
reported identically (modulo the `some` wrapper) by both versions. -/
theorem C9_search_for_object_refinement_witness :
    jss_helper.search_for_object
        ⟨.ok [⟨"1", "foo"⟩], fun _ => .error .jssGetError⟩ none =
      .ok (some [⟨"1", "foo"⟩]) :=
  C9_search_for_object_refinement.2
    ⟨.ok [⟨"1", "foo"⟩], fun _ => .error .jssGetError⟩ none [⟨"1", "foo"⟩]
    rfl (by decide)

/-- C8 counterexample: the single policy `{id: 1, name: "Install
Nethack-3.4.3"}` does not render with two spaces after `ID:`; the column
width is the length of the longest id (here 1), so the id is not
padded. -/
theorem C8_build_results_string_example_counterexample :
    build_results_string none [⟨"1", "Install Nethack-3.4.3"⟩] ≠
      "ID:  1\tNAME: Install Nethack-3.4.3\n" := by decide

/-- C8 (amended): a truthy heading is emitted newline-terminated; empty
results give the body `"No results found."`; non-empty results give one
line per object with the id right-justified to the longest id's printed
length, the lines newline-joined; a trailing newline is always appended;
and the single policy `{id: 1, name: "Install Nethack-3.4.3"}` renders
as `"ID: 1\tNAME: Install Nethack-3.4.3\n"` (one space: width 1 pads
nothing). -/
theorem C8_build_results_string_format :
    (∀ (h : String) (results : List JSSObject), h.isEmpty = false →
      build_results_string (some h) results =
        (if h.endsWith "\n" then h else h ++ "\n") ++
          build_results_string none results) ∧
    build_results_string none [] = "No results found.\n" ∧
    (∀ results : List JSSObject, results ≠ [] →
      build_results_string none results =
        String.intercalate "\n"
          (results.map (fun r =>
            "ID: " ++ rjust r.id ((results.map (fun x => x.id.length)).foldl max 0) ++
              "\t" ++ "NAME: " ++ r.name)) ++ "\n") ∧
    build_results_string none [⟨"1", "Install Nethack-3.4.3"⟩] =
      "ID: 1\tNAME: Install Nethack-3.4.3\n" ∧
    build_results_string none [⟨"7", "a"⟩, ⟨"10", "b"⟩] =
      "ID:  7\tNAME: a\nID: 10\tNAME: b\n" := by
  refine ⟨?_, by decide, ?_, by decide, by decide⟩
  · intro h results hh
    simp [build_results_string, hh, empty_string_append, string_append_assoc]
  · intro results hres
    cases results with
    | nil => exact absurd rfl hres
    | cons r rs => simp [build_results_string, empty_string_append]

/-- The hypothesis-discharging instantiation of
`C8_build_results_string_format` at a concrete heading and a concrete
non-empty result list. -/
theorem C8_build_results_string_format_witness :
    build_results_string (some "Heading") [] =
      (if ("Heading" : String).endsWith "\n" then "Heading" else "Heading" ++ "\n") ++
        build_results_string none [] ∧
    build_results_string none [⟨"2", "x"⟩] =
      String.intercalate "\n"
        ([(⟨"2", "x"⟩ : JSSObject)].map (fun r =>
          "ID: " ++ rjust r.id (([(⟨"2", "x"⟩ : JSSObject)].map (fun x => x.id.length)).foldl max 0) ++
            "\t" ++ "NAME: " ++ r.name)) ++ "\n" :=
  ⟨C8_build_results_string_format.1 "Heading" [] (by decide),
   C8_build_results_string_format.2.2.1 [⟨"2", "x"⟩] (List.cons_ne_nil _ _)⟩

/-- Shape of a successful `get_newest_pkg`: the winner is the last
contributor of the maximal dict key, and no dict key beats that key. -/
theorem get_newest_pkg_some_shape {options : List String} {name : String}
    (hres : get_newest_pkg options = some name) :
    ∃ kmax,
      (options.filter (fun p => stepKey p == some kmax)).getLast? = some name ∧
      ∀ w ∈ (buildVersions options).map (·.1), looseCmp w kmax ≠ .gt := by
  rw [get_newest_pkg] at hres
  cases hbv : buildVersions options with
  | nil => rw [hbv] at hres; exact absurd hres (by simp)
  | cons e rest =>
    obtain ⟨k0, v0⟩ := e
    rw [hbv] at hres
    refine ⟨pyMaxLoose (rest.map (·.1)) k0, ?_, ?_⟩
    · rw [← dictFind_buildVersions options (pyMaxLoose (rest.map (·.1)) k0), hbv]
      exact hres
    · intro w hw
      obtain ⟨_, hbound⟩ := pyMaxLoose_spec (rest.map (·.1)) k0
      refine hbound w ?_
      simpa using hw

/-- C3: `get_newest_pkg` returns a name of maximal parsed version under
the loose ordering (`["App-1.0.pkg","App-2.0.pkg","App-1.5.pkg"]` gives
`"App-2.0.pkg"`); among names parsing to the returned (maximal) version
string the last one in input order wins (dict-key collapse); and when no
name parses the result is `none`. -/
theorem C3_get_newest_pkg_newest :
    get_newest_pkg ["App-1.0.pkg", "App-2.0.pkg", "App-1.5.pkg"] =
      some "App-2.0.pkg" ∧
    (∀ (options : List String) (name : String),
      get_newest_pkg options = some name →
      name ∈ options ∧ ∃ vmax, (get_package_info name).2 = some vmax ∧
        ∀ p ∈ options, ∀ w, (get_package_info p).2 = some w →
          looseCmp w vmax ≠ .gt) ∧
    (∀ (options : List String) (name vmax : String),
      get_newest_pkg options = some name →
      (get_package_info name).2 = some vmax →
      (options.filter (fun p => (get_package_info p).2 == some vmax)).getLast? =
        some name) ∧
    (∀ options : List String,
      (∀ p ∈ options, (get_package_info p).2 = none) →
      get_newest_pkg options = none) := by
  refine ⟨by decide, ?_, ?_, ?_⟩
  · intro options name hres
    obtain ⟨kmax, hlast, hbound⟩ := get_newest_pkg_some_shape hres
    have hmem : name ∈ options.filter (fun p => stepKey p == some kmax) :=
      List.mem_of_mem_getLast? hlast
    have hnameopts : name ∈ options := List.mem_of_mem_filter hmem
    have hsk : stepKey name = some kmax := by
      simpa using List.of_mem_filter hmem
    have hver : (get_package_info name).2 = some kmax :=
      (stepKey_eq_version name kmax).mp hsk
    refine ⟨hnameopts, kmax, hver, ?_⟩
    intro p hp w hw
    have hskp : stepKey p = some w := (stepKey_eq_version p w).mpr hw
    have hkey : w ∈ (buildVersions options).map (·.1) := by
      rw [buildVersions]
      exact stepKey_mem_keys p w options [] hp hskp
    exact hbound w hkey
  · intro options name vmax hres hvmax
    obtain ⟨kmax, hlast, _⟩ := get_newest_pkg_some_shape hres
    have hmem : name ∈ options.filter (fun p => stepKey p == some kmax) :=
      List.mem_of_mem_getLast? hlast
    have hsk : stepKey name = some kmax := by
      simpa using List.of_mem_filter hmem
    have hver : (get_package_info name).2 = some kmax :=
      (stepKey_eq_version name kmax).mp hsk
    have hkv : vmax = kmax := by
      rw [hver] at hvmax
      exact (Option.some.inj hvmax).symm
    subst hkv
    rw [show options.filter (fun p => (get_package_info p).2 == some vmax) =
        options.filter (fun p => stepKey p == some vmax) from
      List.filter_congr (fun p _ => (stepKey_beq_version p vmax).symm)]
    exact hlast
  · intro options hall
    rw [get_newest_pkg]
    have hbv : buildVersions options = [] := by
      rw [buildVersions]
      refine buildVersions_eq_nil options ?_
      intro p hp
      rw [stepKey, hall p hp]
    rw [hbv]

/-- The hypothesis-discharging instantiation of
`C3_get_newest_pkg_newest`: the last-wins characterization at the sample
list, and the absent result on an unparseable list. -/
theorem C3_get_newest_pkg_newest_witness :
    (["App-1.0.pkg", "App-2.0.pkg", "App-1.5.pkg"].filter
      (fun p => (get_package_info p).2 == some "2.0")).getLast? =
        some "App-2.0.pkg" ∧
    get_newest_pkg ["junk"] = none :=
  ⟨C3_get_newest_pkg_newest.2.2.1 ["App-1.0.pkg", "App-2.0.pkg", "App-1.5.pkg"]
      "App-2.0.pkg" "2.0" (by decide) (by decide),
   C3_get_newest_pkg_newest.2.2.2 ["junk"] (by decide)⟩

end JssHelperVerif
